import Mathlib

/-!
# Plandex CLI: directory resolution, legacy migration and project marker

A shallow embedding of `app/cli/fs/fs.go` and a verification of its specification.

* Path strings (`getXDGConfigHome`, `getXDGCacheHome`, `getLegacyHomePlandexDir`, the root
  computation of `init`) are modelled on `String`, with `filepath.Join` implemented as Go
  documents it for Unix (`Clean` of the elements joined by a slash).
* The filesystem is a tree of nodes: regular files with bytes and a mode, directories with a
  mode and named entries.  There are no symbolic links.  A resolved path is the list of its
  components from the filesystem root, and `filepath.Join dir name` for a directory entry
  `name` is `dir ++ [name]`.
* `os.Stat`, `os.ReadFile`, `os.ReadDir`, `os.WriteFile`, `os.Mkdir` and `os.MkdirAll` return
  a result or an error number, and fail for structural reasons only (`ENOENT`, `ENOTDIR`,
  `EISDIR`, `EEXIST`).  Permission bits are recorded, after the process umask, but not
  enforced.  `os.ReadDir` lists the entries sorted by name.
* `migrateLegacyConfig` discards every error; it is a function from the filesystem before the
  call to the filesystem after it.
-/

namespace Plandex

/-! ## Path strings -/

/-- Process environment as seen by `os.Getenv`: an unset variable reads as the empty string. -/
abbrev Env := String → String

/-- Split a path at every slash (empty pieces are kept). -/
def splitSlash : List Char → List (List Char)
  | [] => [[]]
  | c :: cs =>
    if c = '/' then [] :: splitSlash cs
    else
      match splitSlash cs with
      | [] => [[c]]
      | w :: ws => (c :: w) :: ws

/-- One element of the lexical clean-up of `filepath.Clean`; the stack holds the kept
elements, last one first. -/
def cleanStep (rooted : Bool) (stack : List (List Char)) (c : List Char) : List (List Char) :=
  if c = [] ∨ c = ['.'] then stack
  else if c = ['.', '.'] then
    match stack with
    | [] => if rooted then [] else [c]
    | top :: rest => if top = ['.', '.'] then c :: stack else rest
  else c :: stack

/-- Go `filepath.Clean` on Unix. -/
def Clean (path : String) : String :=
  match path.data with
  | [] => "."
  | c :: cs =>
    let rooted : Bool := decide (c = '/')
    let kept := ((splitSlash (c :: cs)).foldl (cleanStep rooted) []).reverse
    let body := List.intercalate ['/'] kept
    if rooted then String.mk ('/' :: body)
    else if body = [] then "." else String.mk body

/-- Go `filepath.Join` on Unix: leading empty elements are dropped, the rest is joined with
slashes and cleaned; no non-empty element gives the empty string. -/
def Join : List String → String
  | [] => ""
  | e :: es =>
    if e = "" then Join es
    else Clean (String.mk (List.intercalate ['/'] ((e :: es).map String.data)))

/-- Source `getXDGConfigHome`: `XDG_CONFIG_HOME`, or `~/.config` by default. -/
def getXDGConfigHome (env : Env) (home : String) : String :=
  if env "XDG_CONFIG_HOME" ≠ "" then env "XDG_CONFIG_HOME"
  else Join [home, ".config"]

/-- Source `getXDGCacheHome`: `XDG_CACHE_HOME`, or `~/.cache` by default. -/
def getXDGCacheHome (env : Env) (home : String) : String :=
  if env "XDG_CACHE_HOME" ≠ "" then env "XDG_CACHE_HOME"
  else Join [home, ".cache"]

/-- Source `getLegacyHomePlandexDir`: the old `~/.plandex-home-v2` path. -/
def getLegacyHomePlandexDir (env : Env) (home : String) : String :=
  if env "PLANDEX_ENV" = "development" then Join [home, ".plandex-home-dev-v2"]
  else Join [home, ".plandex-home-v2"]

/-- The two roots `(HomePlandexDir, CacheDir)` that `init` assigns (lines 144-155). -/
def initRoots (env : Env) (home : String) : String × String :=
  let xdgConfigHome := getXDGConfigHome env home
  let xdgCacheHome := getXDGCacheHome env home
  if env "PLANDEX_ENV" = "development" then
    (Join [xdgConfigHome, "plandex", "dev-v2"], Join [xdgCacheHome, "plandex", "dev-v2"])
  else
    (Join [xdgConfigHome, "plandex", "v2"], Join [xdgCacheHome, "plandex", "v2"])

/-! ## Filesystem -/

/-- Resolved path: its components from the filesystem root. -/
abbrev Path := List String

/-- File contents. -/
abbrev Bytes := List Nat

/-- The error numbers the modelled operations can return. -/
inductive Errno where
  | ENOENT
  | ENOTDIR
  | EISDIR
  | EEXIST
  deriving DecidableEq, Repr

/-- Filesystem node: a regular file or a directory with named entries (the first entry of a
name is the one the name resolves to). -/
inductive Node where
  | file (data : Bytes) (mode : Nat)
  | dir (mode : Nat) (entries : List (String × Node))

/-- What `os.Stat` reports about a node. -/
inductive Info where
  | file (data : Bytes) (mode : Nat)
  | dir (mode : Nat)
  deriving DecidableEq, Repr

/-- Stat view of a node. -/
def Node.info : Node → Info
  | .file d m => .file d m
  | .dir m _ => .dir m

/-- Entry of a directory by name. -/
def getEntry : List (String × Node) → String → Option Node
  | [], _ => none
  | (k, v) :: es, c => if k = c then some v else getEntry es c

/-- Replace the entry a name resolves to. -/
def setEntry : List (String × Node) → String → Node → List (String × Node)
  | [], _, _ => []
  | (k, v) :: es, c, n => if k = c then (c, n) :: es else (k, v) :: setEntry es c n

/-- Path resolution from a node. -/
def walk : Node → Path → Except Errno Node
  | n, [] => .ok n
  | .file _ _, _ :: _ => .error .ENOTDIR
  | .dir _ es, c :: rest =>
    match getEntry es c with
    | none => .error .ENOENT
    | some child => walk child rest

/-- Go `os.IsNotExist` on the error of a call. -/
def isNotExist {α : Type} : Except Errno α → Bool
  | .error .ENOENT => true
  | _ => false

/-- The call returned `err == nil`. -/
def isOk {α : Type} : Except Errno α → Bool
  | .ok _ => true
  | .error _ => false

/-- Go `os.Stat`. -/
def Stat (fs : Node) (p : Path) : Except Errno Info :=
  match walk fs p with
  | .ok n => .ok n.info
  | .error e => .error e

/-- Go `os.ReadFile`. -/
def ReadFile (fs : Node) (p : Path) : Except Errno Bytes :=
  match walk fs p with
  | .ok (.file d _) => .ok d
  | .ok (.dir _ _) => .error .EISDIR
  | .error e => .error e

/-- Lexicographic order on names, as `os.ReadDir` sorts them. -/
def charsLE : List Char → List Char → Bool
  | [], _ => true
  | _ :: _, [] => false
  | a :: as, b :: bs => if a.toNat < b.toNat then true else if b.toNat < a.toNat then false else charsLE as bs

/-- Name order of directory entries. -/
def nameLE (a b : String) : Prop := charsLE a.data b.data = true

instance : DecidableRel nameLE := fun a b => inferInstanceAs (Decidable (charsLE a.data b.data = true))

/-- Directory entry as returned by `os.ReadDir`. -/
structure DirEntry where
  Name : String
  IsDir : Bool
  deriving DecidableEq, Repr

/-- Whether a node is a directory. -/
def Node.isDir : Node → Bool
  | .file _ _ => false
  | .dir _ _ => true

/-- The listing of a directory: each name once, sorted by name. -/
def listing (es : List (String × Node)) : List DirEntry :=
  (((es.map Prod.fst).dedup).insertionSort nameLE).map
    (fun n => ⟨n, match getEntry es n with | some c => c.isDir | none => false⟩)

/-- Go `os.ReadDir`. -/
def ReadDir (fs : Node) (p : Path) : Except Errno (List DirEntry) :=
  match walk fs p with
  | .ok (.dir _ es) => .ok (listing es)
  | .ok (.file _ _) => .error .ENOTDIR
  | .error e => .error e

/-- Permission bits of a created node: the requested bits less those of the umask. -/
def applyUmask (umask perm : Nat) : Nat := (perm % 512) &&& (511 ^^^ (umask % 512))

/-- Go `os.WriteFile` (open with create and truncate, then write): an existing file keeps its
mode, a new file is created in an existing directory. -/
def WriteFile (umask : Nat) (data : Bytes) (perm : Nat) : Node → Path → Except Errno Node
  | .file _ m, [] => .ok (.file data m)
  | .dir _ _, [] => .error .EISDIR
  | .file _ _, _ :: _ => .error .ENOTDIR
  | .dir m es, c :: rest =>
    match getEntry es c with
    | some child =>
      match WriteFile umask data perm child rest with
      | .ok child2 => .ok (.dir m (setEntry es c child2))
      | .error e => .error e
    | none =>
      match rest with
      | [] => .ok (.dir m (es ++ [(c, .file data (applyUmask umask perm))]))
      | _ :: _ => .error .ENOENT

/-- Go `os.Mkdir`. -/
def Mkdir (umask : Nat) (perm : Nat) : Node → Path → Except Errno Node
  | _, [] => .error .EEXIST
  | .file _ _, _ :: _ => .error .ENOTDIR
  | .dir m es, c :: rest =>
    match getEntry es c with
    | some child =>
      match rest with
      | [] => .error .EEXIST
      | _ :: _ =>
        match Mkdir umask perm child rest with
        | .ok child2 => .ok (.dir m (setEntry es c child2))
        | .error e => .error e
    | none =>
      match rest with
      | [] => .ok (.dir m (es ++ [(c, .dir (applyUmask umask perm) [])]))
      | _ :: _ => .error .ENOENT

/-- A chain of new directories, one inside the other. -/
def freshDirs (mode : Nat) : Path → Node
  | [] => .dir mode []
  | c :: rest => .dir mode [(c, freshDirs mode rest)]

/-- Go `os.MkdirAll`: existing directories are kept, missing ones are created, and a file on
the way is an error that leaves everything as it was. -/
def MkdirAll (umask : Nat) (perm : Nat) : Node → Path → Except Errno Node
  | .dir m es, [] => .ok (.dir m es)
  | .file _ _, _ => .error .ENOTDIR
  | .dir m es, c :: rest =>
    match getEntry es c with
    | some child =>
      match MkdirAll umask perm child rest with
      | .ok child2 => .ok (.dir m (setEntry es c child2))
      | .error e => .error e
    | none => .ok (.dir m (es ++ [(c, freshDirs (applyUmask umask perm) rest)]))

/-- State after a call whose error the source discards. -/
def orKeep (r : Except Errno Node) (fs : Node) : Node :=
  match r with
  | .ok fs2 => fs2
  | .error _ => fs

/-- Go `os.ModePerm`. -/
def ModePerm : Nat := 0o777

/-! ## Legacy migration -/

/-- Body of the tiktoken loop (lines 80-86). -/
def tiktokenEntry (umask : Nat) (legacyTiktoken newTiktoken : Path) (fs : Node) (entry : DirEntry) :
    Node :=
  if !entry.IsDir then
    match ReadFile fs (legacyTiktoken ++ [entry.Name]) with
    | .ok data => orKeep (WriteFile umask data 0o644 fs (newTiktoken ++ [entry.Name])) fs
    | .error _ => fs
  else fs

/-- Body of the plan loop (lines 113-126). -/
def planEntry (umask : Nat) (projectDir newProjectDir : Path) (fs : Node) (pe : DirEntry) : Node :=
  if pe.IsDir then
    let planDir := projectDir ++ [pe.Name]
    let newPlanDir := newProjectDir ++ [pe.Name]
    let fs := orKeep (MkdirAll umask ModePerm fs newPlanDir) fs
    let settings := planDir ++ ["settings-v2.json"]
    match ReadFile fs settings with
    | .ok data => orKeep (WriteFile umask data 0o644 fs (newPlanDir ++ ["settings-v2.json"])) fs
    | .error _ => fs
  else fs

/-- Body of the project loop (lines 95-128). -/
def projectEntry (umask : Nat) (legacyDir newConfigDir : Path) (fs : Node) (entry : DirEntry) :
    Node :=
  if entry.IsDir && entry.Name != "cache" then
    let projectDir := legacyDir ++ [entry.Name]
    let newProjectDir := newConfigDir ++ [entry.Name]
    let fs := orKeep (MkdirAll umask ModePerm fs newProjectDir) fs
    let currentPlans := projectDir ++ ["current-plans-v2.json"]
    let fs :=
      match ReadFile fs currentPlans with
      | .ok data =>
        orKeep (WriteFile umask data 0o644 fs (newProjectDir ++ ["current-plans-v2.json"])) fs
      | .error _ => fs
    match ReadDir fs projectDir with
    | .error _ => fs
    | .ok projectEntries => projectEntries.foldl (planEntry umask projectDir newProjectDir) fs
  else fs

/-- Copy of one top-level file (lines 56-62 and 64-70). -/
def topLevelFile (umask : Nat) (legacyDir newConfigDir : Path) (name : String) (perm : Nat)
    (fs : Node) : Node :=
  let legacyFile := legacyDir ++ [name]
  if isOk (Stat fs legacyFile) then
    match ReadFile fs legacyFile with
    | .ok data => orKeep (WriteFile umask data perm fs (newConfigDir ++ [name])) fs
    | .error _ => fs
  else fs

/-- Migration of the cache directory contents (lines 72-88). -/
def migrateCache (umask : Nat) (legacyDir newCacheDir : Path) (fs : Node) : Node :=
  let legacyCacheDir := legacyDir ++ ["cache"]
  if isOk (Stat fs legacyCacheDir) then
    let legacyTiktoken := legacyCacheDir ++ ["tiktoken"]
    match ReadDir fs legacyTiktoken with
    | .ok entries =>
      let newTiktoken := newCacheDir ++ ["tiktoken"]
      let fs := orKeep (MkdirAll umask ModePerm fs newTiktoken) fs
      entries.foldl (tiktokenEntry umask legacyTiktoken newTiktoken) fs
    | .error _ => fs
  else fs

/-- Migration of the project directories (lines 90-128). -/
def migrateProjects (umask : Nat) (legacyDir newConfigDir : Path) (fs : Node) : Node :=
  match ReadDir fs legacyDir with
  | .error _ => fs
  | .ok entries => entries.foldl (projectEntry umask legacyDir newConfigDir) fs

/-- Source `migrateLegacyConfig`: the filesystem after the call. -/
def migrateLegacyConfig (umask : Nat) (legacyDir newConfigDir newCacheDir : Path) (fs : Node) :
    Node :=
  if isNotExist (Stat fs legacyDir) then fs
  else if isOk (Stat fs (newConfigDir ++ ["auth.json"])) then fs
  else
    let fs := topLevelFile umask legacyDir newConfigDir "auth.json" 0o600 fs
    let fs := topLevelFile umask legacyDir newConfigDir "accounts.json" 0o600 fs
    let fs := migrateCache umask legacyDir newCacheDir fs
    migrateProjects umask legacyDir newConfigDir fs

/-! ## Project marker -/

/-- Process-wide variables of the package that the marker functions use; the empty string of
the source is `none`. -/
structure Globals where
  Cwd : Path
  PlandexDir : Option Path
  ProjectRoot : Option Path
  deriving DecidableEq, Repr

/-- Name of the marker directory for the mode selected by `PLANDEX_ENV`. -/
def markerName (env : Env) : String :=
  if env "PLANDEX_ENV" = "development" then ".plandex-dev-v2" else ".plandex-v2"

/-- Source `findPlandex`. -/
def findPlandex (env : Env) (fs : Node) (baseDir : Path) : Option Path :=
  let dir := baseDir ++ [markerName env]
  if !isNotExist (Stat fs dir) then some dir else none

/-- Source `FindPlandexDir`. -/
def FindPlandexDir (env : Env) (fs : Node) (g : Globals) : Globals :=
  { g with PlandexDir := findPlandex env fs g.Cwd }

/-- Result of `FindOrCreatePlandex`: the three returned values, the variables and the
filesystem after the call. -/
structure FindOrCreateResult where
  path : Option Path
  created : Bool
  err : Option Errno
  globals : Globals
  fs : Node

/-- Source `FindOrCreatePlandex`. -/
def FindOrCreatePlandex (env : Env) (umask : Nat) (fs : Node) (g : Globals) : FindOrCreateResult :=
  let g := FindPlandexDir env fs g
  match g.PlandexDir with
  | some d => ⟨some d, false, none, { g with ProjectRoot := some g.Cwd }, fs⟩
  | none =>
    let dir := g.Cwd ++ [markerName env]
    match Mkdir umask ModePerm fs dir with
    | .error e => ⟨none, false, some e, g, fs⟩
    | .ok fs2 => ⟨some dir, true, none, { g with PlandexDir := some dir, ProjectRoot := some g.Cwd }, fs2⟩

/-- What a path resolves to, if anything. -/
def look (fs : Node) (p : Path) : Option Info :=
  match walk fs p with
  | .ok n => some n.info
  | .error _ => none

/-- Whether a path resolves to a directory. -/
def isDirAt (fs : Node) (p : Path) : Bool :=
  match look fs p with
  | some (.dir _) => true
  | _ => false

/-! ## Steps, frames and invariants used in the proofs -/

/-- A `WriteFile` call whose error is discarded. -/
def wstep (umask : Nat) (data : Bytes) (perm : Nat) (p : Path) (t : Node) : Node :=
  orKeep (WriteFile umask data perm t p) t

/-- A `MkdirAll` call whose error is discarded. -/
def mstep (umask : Nat) (p : Path) (t : Node) : Node :=
  orKeep (MkdirAll umask ModePerm t p) t

/-- State of the project loop body after the `MkdirAll` of the project directory and the copy
of its plan index (lines 98-106). -/
def projHead (umask : Nat) (l c : Path) (p : String) (t : Node) : Node :=
  match ReadFile (mstep umask (c ++ [p]) t) (l ++ [p] ++ ["current-plans-v2.json"]) with
  | .ok data => wstep umask data 0o644 (c ++ [p] ++ ["current-plans-v2.json"])
      (mstep umask (c ++ [p]) t)
  | .error _ => mstep umask (c ++ [p]) t

/-- Mode of the file a successful write leaves. -/
def writtenMode (umask perm : Nat) (old : Option Info) : Nat :=
  match old with
  | some (.file _ m) => m
  | _ => applyUmask umask perm

/-- No file lies on the way to `p` (at `p` or above). -/
def noFileOnWay (t : Node) (p : Path) : Prop :=
  ∀ q : Path, q <+: p → ∀ d m, look t q ≠ some (.file d m)

/-- The path does not resolve to a regular file. -/
def NotFile (t : Node) (q : Path) : Prop := ∀ d m, look t q ≠ some (.file d m)

/-- Same kind of node with the same mode. -/
def Info.sameKind : Info → Info → Prop
  | .dir m, .dir m2 => m = m2
  | .file _ m, .file _ m2 => m = m2
  | _, _ => False

/-- Every node of `s` is still there in `t`, with its kind and mode. -/
def Ext (s t : Node) : Prop :=
  ∀ q i, look s q = some i → ∃ j, look t q = some j ∧ i.sameKind j

/-- Lock-step relation between a first run (state `S`), its final state `F`, and a second run
started from `F` (state `T`): at every path the second run sees what the first run sees now or
what the first run ends with. -/
def Rel (F S T : Node) : Prop := ∀ q, look T q = look S q ∨ look T q = look F q

/-- The lock-step relation together with the untouched legacy subtree `n` at `l`. -/
def Inv (l : Path) (n : Node) (F S T : Node) : Prop :=
  Rel F S T ∧ walk S l = .ok n ∧ walk T l = .ok n

/-! ## Success of the discarded calls

The source discards the errors of `os.MkdirAll` and `os.WriteFile`.  The functions below
recompute them, each call on the state it runs on, so that "the writes succeed" can be stated. -/

/-- Legacy root full of data, config root that already has a credentials file. -/
def fsMigrated : Node :=
  .dir 0o755
    [("L", .dir 0o755
      [("auth.json", .file [1] 0o600), ("accounts.json", .file [3] 0o644),
       ("cache", .dir 0o755 [("tiktoken", .dir 0o755 [("a", .file [4] 0o644)])]),
       ("proj1", .dir 0o755 [("current-plans-v2.json", .file [6] 0o644)])]),
     ("C", .dir 0o755 [("auth.json", .file [8] 0o600)]),
     ("K", .dir 0o755 [])]

/-- Legacy root with an account list; the config root already has one of its own and no
credentials file. -/
def fsAccounts : Node :=
  .dir 0o755
    [("L", .dir 0o755 [("accounts.json", .file [3] 0o600)]),
     ("C", .dir 0o755 [("accounts.json", .file [9] 0o644), ("notes.txt", .file [7] 0o644)]),
     ("K", .dir 0o755 [])]

/-- Legacy root with credentials and a project; there is no `/C`. -/
def fsNoConfigRoot : Node :=
  .dir 0o755
    [("L", .dir 0o755 [("auth.json", .file [1] 0o600), ("proj1", .dir 0o755 [])]),
     ("K", .dir 0o755 [])]

/-- Working directory `/w` that holds a regular file with the marker name. -/
def fsMarkerFile : Node :=
  .dir 0o755 [("w", .dir 0o755 [(".plandex-v2", .file [] 0o644)])]

/-- Empty working directory `/w`. -/
def fsNoMarker : Node := .dir 0o755 [("w", .dir 0o755 [])]

theorem getEntry_setEntry (es : List (String × Node)) (c : String) (n : Node) (k : String) :
    getEntry (setEntry es c n) k =
      if k = c then (getEntry es c).map (fun _ => n) else getEntry es k := by
  induction es with
  | nil => simp [setEntry, getEntry]
  | cons e es ih =>
    obtain ⟨a, v⟩ := e
    by_cases hac : a = c
    · subst hac
      by_cases hk : k = a
      · subst hk; simp [setEntry, getEntry]
      · have hk2 : ¬ a = k := fun h => hk h.symm
        simp [setEntry, getEntry, hk, hk2]
    · by_cases hk : k = c
      · subst hk; simp [setEntry, getEntry, hac, ih]
      · by_cases hak : a = k
        · subst hak; simp [setEntry, getEntry, hac]
        · simp [setEntry, getEntry, hac, hak, ih, hk]

theorem getEntry_append_single (es : List (String × Node)) (c : String) (n : Node) (k : String) :
    getEntry (es ++ [(c, n)]) k =
      match getEntry es k with
      | some v => some v
      | none => if c = k then some n else none := by
  induction es with
  | nil => simp [getEntry]
  | cons e es ih =>
    obtain ⟨a, v⟩ := e
    by_cases hak : a = k
    · simp [getEntry, hak]
    · simp [getEntry, hak, ih]

theorem walk_nil (t : Node) : walk t [] = .ok t := by
  cases t <;> rfl

theorem walk_file_cons (d : Bytes) (m : Nat) (c : String) (r : Path) :
    walk (.file d m) (c :: r) = .error .ENOTDIR := rfl

theorem walk_dir_cons (m : Nat) (es : List (String × Node)) (c : String) (r : Path) :
    walk (.dir m es) (c :: r) =
      match getEntry es c with
      | none => .error .ENOENT
      | some child => walk child r := rfl

theorem walk_append (t : Node) (p q : Path) :
    walk t (p ++ q) =
      match walk t p with
      | .ok n => walk n q
      | .error e => .error e := by
  induction p generalizing t with
  | nil => simp [walk_nil]
  | cons c r ih =>
    cases t with
    | file d m => simp [walk_file_cons]
    | dir m es =>
      simp only [List.cons_append, walk_dir_cons]
      cases h : getEntry es c with
      | none => simp
      | some child => simpa using ih child

theorem look_nil (t : Node) : look t [] = some t.info := by
  simp [look, walk_nil]

theorem look_file_cons (d : Bytes) (m : Nat) (c : String) (r : Path) :
    look (.file d m) (c :: r) = none := rfl

theorem look_dir_cons (m : Nat) (es : List (String × Node)) (c : String) (r : Path) :
    look (.dir m es) (c :: r) =
      match getEntry es c with
      | none => none
      | some child => look child r := by
  simp only [look, walk_dir_cons]
  cases getEntry es c <;> rfl

theorem WriteFile_look {umask : Nat} {data : Bytes} {perm : Nat} {p : Path} :
    ∀ {t t2 : Node}, WriteFile umask data perm t p = .ok t2 → ∀ q : Path,
      look t2 q =
        if q = p then some (.file data (writtenMode umask perm (look t p))) else look t q := by
  induction p with
  | nil =>
    intro t t2 h q
    cases t with
    | file d m =>
      simp only [WriteFile, Except.ok.injEq] at h
      subst h
      cases q with
      | nil => simp [look_nil, Node.info, writtenMode]
      | cons k r => simp [look_file_cons]
    | dir m es => simp [WriteFile] at h
  | cons c rest ih =>
    intro t t2 h q
    cases t with
    | file d m => simp [WriteFile] at h
    | dir m es =>
      simp only [WriteFile] at h
      cases hc : getEntry es c with
      | some child =>
        simp only [hc] at h
        cases hw : WriteFile umask data perm child rest with
        | error e => simp [hw] at h
        | ok child2 =>
          simp only [hw, Except.ok.injEq] at h
          subst h
          cases q with
          | nil => simp [look_nil, Node.info]
          | cons k r =>
            simp only [look_dir_cons, getEntry_setEntry, hc]
            by_cases hk : k = c
            · subst hk
              simp only [if_true, Option.map_some', hc, ih hw r, List.cons.injEq, true_and]
            · simp [hk]
      | none =>
        simp only [hc] at h
        cases rest with
        | cons a b => simp at h
        | nil =>
          simp only [Except.ok.injEq] at h
          subst h
          cases q with
          | nil => simp [look_nil, Node.info]
          | cons k r =>
            simp only [look_dir_cons, getEntry_append_single, hc]
            cases hk : getEntry es k with
            | some v =>
              have hne : k ≠ c := by
                rintro rfl
                rw [hc] at hk
                cases hk
              simp [hne]
            | none =>
              by_cases hck : c = k
              · subst hck
                cases r with
                | nil => simp [look_nil, Node.info, writtenMode]
                | cons a b => simp [look_file_cons]
              · have : ¬ k = c := fun h => hck h.symm
                simp [hck, this]

theorem WriteFile_ok_iff (umask : Nat) (data : Bytes) (perm : Nat) (c : String) :
    ∀ (par : Path) (t : Node),
      isOk (WriteFile umask data perm t (par ++ [c])) = true ↔
        (isDirAt t par = true ∧ isDirAt t (par ++ [c]) = false) := by
  intro par
  induction par with
  | nil =>
    intro t
    cases t with
    | file d m => simp [WriteFile, isOk, isDirAt, look_nil, Node.info]
    | dir m es =>
      simp only [List.nil_append, WriteFile, isDirAt, look_nil, Node.info, look_dir_cons]
      cases hc : getEntry es c with
      | none => simp [isOk]
      | some child =>
        cases child with
        | file d2 m2 => simp [WriteFile, isOk, look_nil, Node.info]
        | dir m2 es2 => simp [WriteFile, isOk, look_nil, Node.info]
  | cons k par ih =>
    intro t
    cases t with
    | file d m => simp [WriteFile, isOk, isDirAt, look_file_cons]
    | dir m es =>
      simp only [List.cons_append, WriteFile, isDirAt, look_dir_cons]
      cases hk : getEntry es k with
      | none =>
        cases par with
        | nil => simp [isOk]
        | cons x y => simp [isOk]
      | some child =>
        have := ih child
        simp only [isDirAt] at this
        simp only [← this]
        cases WriteFile umask data perm child (par ++ [c]) <;> simp [isOk]

theorem look_freshDirs (mode : Nat) : ∀ (p q : Path),
    look (freshDirs mode p) q = if q <+: p then some (.dir mode) else none := by
  intro p
  induction p with
  | nil =>
    intro q
    cases q with
    | nil => simp [freshDirs, look_nil, Node.info]
    | cons k r => simp [freshDirs, look_dir_cons, getEntry]
  | cons c rest ih =>
    intro q
    cases q with
    | nil => simp [freshDirs, look_nil, Node.info]
    | cons k r =>
      simp only [freshDirs, look_dir_cons, getEntry]
      by_cases hk : c = k
      · subst hk
        simp [ih r, List.cons_prefix_cons]
      · have hk2 : ¬ k = c := fun h => hk h.symm
        simp [hk, hk2, List.cons_prefix_cons]

theorem MkdirAll_look {umask perm : Nat} {p : Path} :
    ∀ {t t2 : Node}, MkdirAll umask perm t p = .ok t2 → ∀ q : Path,
      look t2 q =
        match look t q with
        | some i => some i
        | none => if q <+: p then some (.dir (applyUmask umask perm)) else none := by
  induction p with
  | nil =>
    intro t t2 h q
    cases t with
    | file d m => simp [MkdirAll] at h
    | dir m es =>
      simp only [MkdirAll, Except.ok.injEq] at h
      subst h
      cases hq : look (Node.dir m es) q with
      | some i => rfl
      | none =>
        cases q with
        | nil => simp [look_nil] at hq
        | cons k r => simp
  | cons c rest ih =>
    intro t t2 h q
    cases t with
    | file d m => simp [MkdirAll] at h
    | dir m es =>
      simp only [MkdirAll] at h
      cases hc : getEntry es c with
      | some child =>
        simp only [hc] at h
        cases hw : MkdirAll umask perm child rest with
        | error e => simp [hw] at h
        | ok child2 =>
          simp only [hw, Except.ok.injEq] at h
          subst h
          cases q with
          | nil => simp [look_nil, Node.info]
          | cons k r =>
            simp only [look_dir_cons, getEntry_setEntry, hc]
            by_cases hk : k = c
            · subst hk
              simp only [if_true, Option.map_some', hc, ih hw r, List.cons_prefix_cons, true_and]
            · simp only [hk, if_false]
              cases hk2 : getEntry es k with
              | none => simp [List.cons_prefix_cons, hk]
              | some v =>
                simp only
                cases look v r <;> simp [List.cons_prefix_cons, hk]
      | none =>
        simp only [hc, Except.ok.injEq] at h
        subst h
        cases q with
        | nil => simp [look_nil, Node.info]
        | cons k r =>
          simp only [look_dir_cons, getEntry_append_single]
          cases hk : getEntry es k with
          | some v =>
            have hne : k ≠ c := by
              rintro rfl
              rw [hc] at hk
              cases hk
            simp only
            cases look v r <;> simp [List.cons_prefix_cons, hne]
          | none =>
            by_cases hck : c = k
            · subst hck
              simp [look_freshDirs, List.cons_prefix_cons]
            · have : ¬ k = c := fun h => hck h.symm
              simp [hck, this, List.cons_prefix_cons]

theorem MkdirAll_ok_iff (umask perm : Nat) :
    ∀ (p : Path) (t : Node), isOk (MkdirAll umask perm t p) = true ↔ noFileOnWay t p := by
  intro p
  induction p with
  | nil =>
    intro t
    cases t with
    | file d m =>
      simp only [MkdirAll, isOk, noFileOnWay]
      constructor
      · intro h; cases h
      · intro h; exact absurd (look_nil _) (h [] (List.nil_prefix) d m)
    | dir m es =>
      simp only [MkdirAll, isOk, noFileOnWay, true_iff]
      intro q hq d m2
      have : q = [] := List.eq_nil_of_prefix_nil hq
      subst this
      simp [look_nil, Node.info]
  | cons c rest ih =>
    intro t
    cases t with
    | file d m =>
      simp only [MkdirAll, isOk, noFileOnWay]
      constructor
      · intro h; cases h
      · intro h; exact absurd (look_nil _) (h [] (List.nil_prefix) d m)
    | dir m es =>
      simp only [MkdirAll]
      cases hc : getEntry es c with
      | none =>
        simp only [isOk, noFileOnWay, true_iff]
        intro q hq d m2
        cases q with
        | nil => simp [look_nil, Node.info]
        | cons k r =>
          have hk : k = c := (List.cons_prefix_cons.mp hq).1
          subst hk
          simp [look_dir_cons, hc]
      | some child =>
        have key : noFileOnWay child rest ↔ noFileOnWay (Node.dir m es) (c :: rest) := by
          simp only [noFileOnWay]
          constructor
          · intro h q hq d m2
            cases q with
            | nil => simp [look_nil, Node.info]
            | cons k r =>
              obtain ⟨hk, hr⟩ := List.cons_prefix_cons.mp hq
              subst hk
              simpa [look_dir_cons, hc] using h r hr d m2
          · intro h q hq d m2
            have := h (c :: q) (List.cons_prefix_cons.mpr ⟨rfl, hq⟩) d m2
            simpa [look_dir_cons, hc] using this
        rw [← key, ← ih child]
        cases hm : MkdirAll umask perm child rest <;> simp [hm, isOk]

/-! ## The subtree at a path is untouched by writes elsewhere -/

theorem walk_WriteFile {umask : Nat} {data : Bytes} {perm : Nat} :
    ∀ (l p : Path) {t t2 n : Node}, WriteFile umask data perm t p = .ok t2 → ¬ l <+: p →
      walk t l = .ok n → walk t2 l = .ok n := by
  intro l
  induction l with
  | nil => intro p t t2 n _ hl _; exact absurd List.nil_prefix hl
  | cons c l ih =>
    intro p t t2 n h hl hw
    cases t with
    | file d m => simp [walk_file_cons] at hw
    | dir m es =>
      cases p with
      | nil => simp [WriteFile] at h
      | cons k r =>
        simp only [WriteFile] at h
        simp only [walk_dir_cons] at hw
        cases hk : getEntry es k with
        | some child =>
          simp only [hk] at h
          cases hc : WriteFile umask data perm child r with
          | error e => simp [hc] at h
          | ok child2 =>
            simp only [hc, Except.ok.injEq] at h
            subst h
            simp only [walk_dir_cons, getEntry_setEntry]
            by_cases hck : c = k
            · subst hck
              simp only [hk] at hw
              simp only [if_true, hk, Option.map_some']
              exact ih r hc (fun hp => hl (List.cons_prefix_cons.mpr ⟨rfl, hp⟩)) hw
            · simpa [hck] using hw
        | none =>
          simp only [hk] at h
          cases r with
          | cons a b => simp at h
          | nil =>
            simp only [Except.ok.injEq] at h
            subst h
            simp only [walk_dir_cons, getEntry_append_single]
            cases hc : getEntry es c with
            | none => simp [hc] at hw
            | some v => simpa [hc] using hw

theorem walk_MkdirAll {umask perm : Nat} :
    ∀ (l p : Path) {t t2 n : Node}, MkdirAll umask perm t p = .ok t2 → ¬ l <+: p →
      walk t l = .ok n → walk t2 l = .ok n := by
  intro l
  induction l with
  | nil => intro p t t2 n _ hl _; exact absurd List.nil_prefix hl
  | cons c l ih =>
    intro p t t2 n h hl hw
    cases t with
    | file d m => simp [walk_file_cons] at hw
    | dir m es =>
      cases p with
      | nil =>
        simp only [MkdirAll, Except.ok.injEq] at h
        subst h
        exact hw
      | cons k r =>
        simp only [MkdirAll] at h
        simp only [walk_dir_cons] at hw
        cases hk : getEntry es k with
        | some child =>
          simp only [hk] at h
          cases hc : MkdirAll umask perm child r with
          | error e => simp [hc] at h
          | ok child2 =>
            simp only [hc, Except.ok.injEq] at h
            subst h
            simp only [walk_dir_cons, getEntry_setEntry]
            by_cases hck : c = k
            · subst hck
              simp only [hk] at hw
              simp only [if_true, hk, Option.map_some']
              exact ih r hc (fun hp => hl (List.cons_prefix_cons.mpr ⟨rfl, hp⟩)) hw
            · simpa [hck] using hw
        | none =>
          simp only [hk, Except.ok.injEq] at h
          subst h
          simp only [walk_dir_cons, getEntry_append_single]
          cases hc : getEntry es c with
          | none => simp [hc] at hw
          | some v => simpa [hc] using hw

/-! ## The two mutating steps, errors discarded -/

theorem wstep_look_ne {umask : Nat} {data : Bytes} {perm : Nat} {p q : Path} (t : Node)
    (hq : q ≠ p) : look (wstep umask data perm p t) q = look t q := by
  unfold wstep
  cases h : WriteFile umask data perm t p with
  | error e => rfl
  | ok t2 => simp [orKeep, WriteFile_look h q, hq]

theorem wstep_look_self {u : Nat} {d : Bytes} {r : Nat} {par : Path} {c : String}
    (t : Node) (h1 : isDirAt t par = true) (h2 : isDirAt t (par ++ [c]) = false) :
    look (wstep u d r (par ++ [c]) t) (par ++ [c]) =
      some (.file d (writtenMode u r (look t (par ++ [c])))) := by
  unfold wstep
  have hok := (WriteFile_ok_iff u d r c par t).mpr ⟨h1, h2⟩
  cases h : WriteFile u d r t (par ++ [c]) with
  | error e => simp [h, isOk] at hok
  | ok t2 => simp [orKeep, WriteFile_look h]

theorem wstep_fail {umask : Nat} {data : Bytes} {perm : Nat} {par : Path} {c : String}
    (t : Node) (h : ¬ (isDirAt t par = true ∧ isDirAt t (par ++ [c]) = false)) :
    wstep umask data perm (par ++ [c]) t = t := by
  unfold wstep
  have hok := (WriteFile_ok_iff umask data perm c par t).not.mpr h
  cases h : WriteFile umask data perm t (par ++ [c]) with
  | error e => rfl
  | ok t2 => simp [h, isOk] at hok

theorem mstep_look {umask : Nat} {p : Path} (t : Node) (q : Path) :
    look (mstep umask p t) q =
      match look t q with
      | some i => some i
      | none =>
        if q <+: p ∧ isOk (MkdirAll umask ModePerm t p) = true then
          some (.dir (applyUmask umask ModePerm))
        else none := by
  unfold mstep
  cases h : MkdirAll umask ModePerm t p with
  | error e => cases hq : look t q <;> simp [orKeep, hq, isOk]
  | ok t2 => cases hq : look t q <;> simp [orKeep, MkdirAll_look h q, hq, isOk]

theorem mstep_look_some {umask : Nat} {p q : Path} {t : Node} {i : Info}
    (h : look t q = some i) : look (mstep umask p t) q = some i := by
  rw [mstep_look, h]

theorem walk_wstep {umask : Nat} {data : Bytes} {perm : Nat} {l p : Path} {t n : Node}
    (hl : ¬ l <+: p) (hw : walk t l = .ok n) : walk (wstep umask data perm p t) l = .ok n := by
  unfold wstep
  cases h : WriteFile umask data perm t p with
  | error e => exact hw
  | ok t2 => exact walk_WriteFile l p h hl hw

theorem walk_mstep {umask : Nat} {l p : Path} {t n : Node}
    (hl : ¬ l <+: p) (hw : walk t l = .ok n) : walk (mstep umask p t) l = .ok n := by
  unfold mstep
  cases h : MkdirAll umask ModePerm t p with
  | error e => exact hw
  | ok t2 => exact walk_MkdirAll l p h hl hw

/-! ## Basic facts about `look` -/

theorem look_append (t : Node) (p q : Path) :
    look t (p ++ q) =
      match walk t p with
      | .ok n => look n q
      | .error _ => none := by
  simp only [look, walk_append]
  cases walk t p <;> rfl

theorem look_none_append {t : Node} {p : Path} (h : look t p = none) (q : Path) :
    look t (p ++ q) = none := by
  rw [look_append]
  simp only [look] at h
  cases hw : walk t p with
  | ok n => simp [hw] at h
  | error e => rfl

theorem look_file_append {t : Node} {p : Path} {d : Bytes} {m : Nat}
    (h : look t p = some (.file d m)) (c : String) (q : Path) :
    look t (p ++ c :: q) = none := by
  rw [look_append]
  simp only [look] at h
  cases hw : walk t p with
  | error e => rfl
  | ok n =>
    cases n with
    | file d2 m2 => rfl
    | dir m2 es => simp [hw, Node.info] at h

theorem isDirAt_iff {t : Node} {p : Path} : isDirAt t p = true ↔ ∃ m, look t p = some (.dir m) := by
  unfold isDirAt
  cases h : look t p with
  | none => simp
  | some i => cases i <;> simp

/-! ## Reads in terms of `look` -/

theorem isOk_Stat (t : Node) (p : Path) : isOk (Stat t p) = (look t p).isSome := by
  unfold Stat look
  cases walk t p <;> rfl

theorem isOk_Stat_false {t : Node} {p : Path} (h : look t p = none) : isOk (Stat t p) = false := by
  rw [isOk_Stat, h]; rfl

theorem isNotExist_Stat {t : Node} {p : Path} (h : isNotExist (Stat t p) = true) :
    look t p = none := by
  unfold Stat at h
  unfold look
  cases hw : walk t p with
  | ok n => simp [hw, isNotExist] at h
  | error e => rfl

theorem ReadDir_error_of_none {t : Node} {p : Path} (h : look t p = none) :
    ∃ e, ReadDir t p = .error e := by
  unfold look at h
  unfold ReadDir
  cases hw : walk t p with
  | error e => exact ⟨e, rfl⟩
  | ok n => simp [hw] at h

theorem foldl_inv {α β : Type} (I : β → Prop) (f : β → α → β) :
    ∀ (es : List α), (∀ e ∈ es, ∀ b, I b → I (f b e)) → ∀ b, I b → I (es.foldl f b) := by
  intro es
  induction es with
  | nil => intro _ b hb; exact hb
  | cons e es ih =>
    intro h b hb
    simp only [List.foldl_cons]
    exact ih (fun x hx => h x (List.mem_cons_of_mem _ hx)) _ (h e (List.mem_cons_self _ _) b hb)

/-! ## Nothing is ever removed: kinds and modes persist -/

theorem Info.sameKind_refl (i : Info) : i.sameKind i := by
  cases i <;> simp [Info.sameKind]

theorem Info.sameKind_trans {i j k : Info} (h1 : i.sameKind j) (h2 : j.sameKind k) :
    i.sameKind k := by
  cases i <;> cases j <;> cases k <;> simp_all [Info.sameKind]

theorem Ext.refl (s : Node) : Ext s s := fun _ i h => ⟨i, h, i.sameKind_refl⟩

theorem Ext.trans {s t u : Node} (h1 : Ext s t) (h2 : Ext t u) : Ext s u := by
  intro q i h
  obtain ⟨j, hj, hij⟩ := h1 q i h
  obtain ⟨k, hk, hjk⟩ := h2 q j hj
  exact ⟨k, hk, Info.sameKind_trans hij hjk⟩

theorem Ext_wstep (umask : Nat) (data : Bytes) (perm : Nat) (p : Path) (t : Node) :
    Ext t (wstep umask data perm p t) := by
  intro q i h
  unfold wstep
  cases hw : WriteFile umask data perm t p with
  | error e => exact ⟨i, h, i.sameKind_refl⟩
  | ok t2 =>
    simp only [orKeep, WriteFile_look hw q]
    by_cases hq : q = p
    · subst hq
      simp only [if_true, h]
      cases i with
      | file d m => exact ⟨_, rfl, by simp [writtenMode, Info.sameKind]⟩
      | dir m =>
        exfalso
        cases q with
        | nil =>
          cases t with
          | file d2 m2 => simp [look_nil, Node.info] at h
          | dir m2 es => simp [WriteFile] at hw
        | cons c r =>
          obtain ⟨par, a, hpa⟩ : ∃ par a, c :: r = par ++ [a] :=
            ⟨(c :: r).dropLast, (c :: r).getLast (by simp),
              (List.dropLast_append_getLast (by simp)).symm⟩
          rw [hpa] at hw h
          have hok := (WriteFile_ok_iff umask data perm a par t).mp (by simp [hw, isOk])
          have : isDirAt t (par ++ [a]) = true := by simp [isDirAt, h]
          rw [this] at hok
          simp at hok
    · simp only [hq, if_false]
      exact ⟨i, h, i.sameKind_refl⟩

theorem Ext_mstep (umask : Nat) (p : Path) (t : Node) : Ext t (mstep umask p t) := by
  intro q i h
  exact ⟨i, mstep_look_some h, i.sameKind_refl⟩

theorem Ext_foldl {α : Type} (f : Node → α → Node) (hf : ∀ t e, Ext t (f t e)) :
    ∀ (es : List α) (t : Node), Ext t (es.foldl f t) := by
  intro es
  induction es with
  | nil => intro t; exact Ext.refl t
  | cons e es ih => intro t; exact (hf t e).trans (ih (f t e))

theorem Ext_tiktokenEntry (umask : Nat) (a b : Path) (t : Node) (e : DirEntry) :
    Ext t (tiktokenEntry umask a b t e) := by
  unfold tiktokenEntry
  split
  · split
    · exact Ext_wstep _ _ _ _ _
    · exact Ext.refl _
  · exact Ext.refl _

theorem Ext_planEntry (umask : Nat) (a b : Path) (t : Node) (e : DirEntry) :
    Ext t (planEntry umask a b t e) := by
  unfold planEntry
  split
  · simp only []
    split
    · exact (Ext_mstep _ _ _).trans (Ext_wstep _ _ _ _ _)
    · exact Ext_mstep _ _ _
  · exact Ext.refl _

theorem Ext_projectEntry (umask : Nat) (a b : Path) (t : Node) (e : DirEntry) :
    Ext t (projectEntry umask a b t e) := by
  unfold projectEntry
  split
  · simp only []
    have h1 : Ext t (mstep umask (b ++ [e.Name]) t) := Ext_mstep _ _ _
    have h2 : Ext (mstep umask (b ++ [e.Name]) t)
        (match ReadFile (mstep umask (b ++ [e.Name]) t) (a ++ [e.Name] ++ ["current-plans-v2.json"]) with
        | .ok data => wstep umask data 0o644 (b ++ [e.Name] ++ ["current-plans-v2.json"])
            (mstep umask (b ++ [e.Name]) t)
        | .error _ => mstep umask (b ++ [e.Name]) t) := by
      split
      · exact Ext_wstep _ _ _ _ _
      · exact Ext.refl _
    split
    · exact h1.trans h2
    · exact (h1.trans h2).trans (Ext_foldl _ (Ext_planEntry _ _ _) _ _)
  · exact Ext.refl _

theorem Ext_topLevelFile (umask : Nat) (a b : Path) (name : String) (perm : Nat) (t : Node) :
    Ext t (topLevelFile umask a b name perm t) := by
  unfold topLevelFile
  simp only []
  split
  · split
    · exact Ext_wstep _ _ _ _ _
    · exact Ext.refl _
  · exact Ext.refl _

theorem Ext_migrateCache (umask : Nat) (a b : Path) (t : Node) :
    Ext t (migrateCache umask a b t) := by
  unfold migrateCache
  simp only []
  split
  · split
    · exact (Ext_mstep _ _ _).trans (Ext_foldl _ (Ext_tiktokenEntry _ _ _) _ _)
    · exact Ext.refl _
  · exact Ext.refl _

theorem Ext_migrateProjects (umask : Nat) (a b : Path) (t : Node) :
    Ext t (migrateProjects umask a b t) := by
  unfold migrateProjects
  split
  · exact Ext.refl _
  · exact Ext_foldl _ (Ext_projectEntry _ _ _) _ _

theorem Ext_migrateLegacyConfig (umask : Nat) (l c k : Path) (t : Node) :
    Ext t (migrateLegacyConfig umask l c k t) := by
  unfold migrateLegacyConfig
  split
  · exact Ext.refl _
  · split
    · exact Ext.refl _
    · exact (((Ext_topLevelFile _ _ _ _ _ _).trans (Ext_topLevelFile _ _ _ _ _ _)).trans
        (Ext_migrateCache _ _ _ _)).trans (Ext_migrateProjects _ _ _ _)

/-! ## Migration with nothing to read -/

theorem topLevelFile_of_none {umask : Nat} {a b : Path} {name : String} {perm : Nat} {t : Node}
    (h : look t (a ++ [name]) = none) : topLevelFile umask a b name perm t = t := by
  unfold topLevelFile
  simp [isOk_Stat_false h]

theorem migrateCache_of_none {umask : Nat} {a b : Path} {t : Node}
    (h : look t (a ++ ["cache"]) = none) : migrateCache umask a b t = t := by
  unfold migrateCache
  simp [isOk_Stat_false h]

theorem migrateProjects_of_none {umask : Nat} {a b : Path} {t : Node}
    (h : look t a = none) : migrateProjects umask a b t = t := by
  unfold migrateProjects
  obtain ⟨e, he⟩ := ReadDir_error_of_none h
  simp [he]

theorem migrate_guard {umask : Nat} {l c k : Path} {t : Node}
    (h : look t l = none ∨ look t (c ++ ["auth.json"]) ≠ none) :
    migrateLegacyConfig umask l c k t = t := by
  unfold migrateLegacyConfig
  split
  · rfl
  · split
    · rfl
    · rename_i h2
      rcases h with h | h
      · simp only []
        rw [topLevelFile_of_none (look_none_append h _), topLevelFile_of_none (look_none_append h _),
          migrateCache_of_none (look_none_append h _), migrateProjects_of_none h]
      · exfalso
        apply h2
        rw [isOk_Stat]
        cases hl : look t (c ++ ["auth.json"]) with
        | none => exact absurd hl h
        | some i => rfl

/-! ## What migration leaves alone -/

theorem tiktokenEntry_look_ne {umask : Nat} {a b : Path} {q : Path} (t : Node) (e : DirEntry)
    (hq : q ≠ b ++ [e.Name]) : look (tiktokenEntry umask a b t e) q = look t q := by
  unfold tiktokenEntry
  split
  · split
    · exact wstep_look_ne t hq
    · rfl
  · rfl

theorem Mkdir_look {umask perm : Nat} {p : Path} :
    ∀ {t t2 : Node}, Mkdir umask perm t p = .ok t2 → ∀ q : Path,
      look t2 q = if q = p then some (.dir (applyUmask umask perm)) else look t q := by
  induction p with
  | nil => intro t t2 h q; simp [Mkdir] at h
  | cons c rest ih =>
    intro t t2 h q
    cases t with
    | file d m => simp [Mkdir] at h
    | dir m es =>
      simp only [Mkdir] at h
      cases hc : getEntry es c with
      | some child =>
        simp only [hc] at h
        cases rest with
        | nil => simp at h
        | cons a b =>
          simp only [] at h
          cases hw : Mkdir umask perm child (a :: b) with
          | error e => simp [hw] at h
          | ok child2 =>
            simp only [hw, Except.ok.injEq] at h
            subst h
            cases q with
            | nil => simp [look_nil, Node.info]
            | cons k r =>
              simp only [look_dir_cons, getEntry_setEntry, hc]
              by_cases hk : k = c
              · subst hk
                simp only [if_true, Option.map_some', hc, ih hw r, List.cons.injEq, true_and]
              · simp [hk]
      | none =>
        simp only [hc] at h
        cases rest with
        | cons a b => simp at h
        | nil =>
          simp only [Except.ok.injEq] at h
          subst h
          cases q with
          | nil => simp [look_nil, Node.info]
          | cons k r =>
            simp only [look_dir_cons, getEntry_append_single, hc]
            cases hk : getEntry es k with
            | some v =>
              have hne : k ≠ c := by
                rintro rfl
                rw [hc] at hk
                cases hk
              simp [hne]
            | none =>
              by_cases hck : c = k
              · subst hck
                cases r with
                | nil => simp [look_nil, Node.info]
                | cons a b => simp [look_dir_cons, getEntry]
              · have : ¬ k = c := fun h => hck h.symm
                simp [hck, this]

theorem findPlandex_eq (env : Env) (fs : Node) (base : Path) :
    findPlandex env fs base =
      if isNotExist (Stat fs (base ++ [markerName env])) = true then none
      else some (base ++ [markerName env]) := by
  unfold findPlandex
  cases h : isNotExist (Stat fs (base ++ [markerName env])) <;> simp [h]

theorem isNotExist_Stat_child {fs : Node} {base : Path} {c : String}
    (hd : isDirAt fs base = true) (hn : look fs (base ++ [c]) = none) :
    isNotExist (Stat fs (base ++ [c])) = true := by
  obtain ⟨m, hm⟩ := isDirAt_iff.mp hd
  unfold Stat
  unfold look at hm hn
  rw [walk_append] at hn ⊢
  cases hw : walk fs base with
  | error e => simp [hw] at hm
  | ok n =>
    cases n with
    | file d m2 => simp [hw, Node.info] at hm
    | dir m2 es =>
      simp only [hw, walk_dir_cons] at hn ⊢
      cases hc : getEntry es c with
      | none => rfl
      | some child => simp [hc, walk_nil] at hn

/-! ## Path helpers -/

/-- C1: `migrateLegacyConfig` returns the filesystem unchanged when the legacy directory does
not exist, and also when the new config directory already contains `auth.json`, whatever the
legacy directory contains. -/
theorem migrateLegacyConfig_unchanged (umask : Nat) (legacyDir newConfigDir newCacheDir : Path)
    (fs : Node)
    (h : look fs legacyDir = none ∨ look fs (newConfigDir ++ ["auth.json"]) ≠ none) :
    migrateLegacyConfig umask legacyDir newConfigDir newCacheDir fs = fs :=
  migrate_guard h

/-- Witness for C1: a full legacy root is ignored once the config root has `auth.json`. -/
theorem migrateLegacyConfig_unchanged_witness :
    (look fsMigrated ["L"] = none ∨ look fsMigrated (["C"] ++ ["auth.json"]) ≠ none) ∧
    migrateLegacyConfig 0o022 ["L"] ["C"] ["K"] fsMigrated = fsMigrated :=
  ⟨by decide, migrateLegacyConfig_unchanged 0o022 ["L"] ["C"] ["K"] fsMigrated (by decide)⟩

/-! ## Root resolution -/

/-- C8: the config base is `XDG_CONFIG_HOME` when non-empty and `Join(home, ".config")`
otherwise, the cache base is `XDG_CACHE_HOME` when non-empty and `Join(home, ".cache")`
otherwise, and `init` sets `HomePlandexDir = Join(configBase, "plandex", seg)` and
`CacheDir = Join(cacheBase, "plandex", seg)` with `seg` equal to `dev-v2` exactly when
`PLANDEX_ENV` is `development` and `v2` otherwise. -/
theorem initRoots_spec (env : Env) (home : String) :
    getXDGConfigHome env home =
      (if env "XDG_CONFIG_HOME" ≠ "" then env "XDG_CONFIG_HOME" else Join [home, ".config"]) ∧
    getXDGCacheHome env home =
      (if env "XDG_CACHE_HOME" ≠ "" then env "XDG_CACHE_HOME" else Join [home, ".cache"]) ∧
    initRoots env home =
      (Join [getXDGConfigHome env home, "plandex",
          if env "PLANDEX_ENV" = "development" then "dev-v2" else "v2"],
       Join [getXDGCacheHome env home, "plandex",
          if env "PLANDEX_ENV" = "development" then "dev-v2" else "v2"]) := by
  refine ⟨rfl, rfl, ?_⟩
  unfold initRoots
  by_cases h : env "PLANDEX_ENV" = "development" <;> simp [h]

/-- Counterexample to C7 as stated: a working directory with no marker subdirectory but with a
regular file of the marker name; `findPlandex` returns its path, not the empty string. -/
theorem marker_file_is_found :
    isDirAt fsMarkerFile ["w"] = true ∧
    isDirAt fsMarkerFile (["w"] ++ [markerName (fun _ => "")]) = false ∧
    findPlandex (fun _ => "") fsMarkerFile ["w"] = some ["w", ".plandex-v2"] ∧
    findPlandex (fun _ => "") fsMarkerFile ["w"] ≠ none := by
  decide

/-- C7 (amended): for a working directory with no entry of any kind under the marker name,
`findPlandex` returns the empty string; `FindOrCreatePlandex` then, if `Mkdir` succeeds,
creates exactly `Cwd/<marker>`, returns `(Cwd/<marker>, true, nil)`, sets `PlandexDir` to that
path and `ProjectRoot` to `Cwd`, and a following `findPlandex` returns `Cwd/<marker>`.  When
`findPlandex` finds the marker, `FindOrCreatePlandex` returns `(path, false, nil)` and creates
nothing; when `Mkdir` fails it returns `("", false, err)`. -/
theorem marker_find_or_create (env : Env) (umask : Nat) (fs : Node) (g : Globals) :
    (isDirAt fs g.Cwd = true → look fs (g.Cwd ++ [markerName env]) = none →
      findPlandex env fs g.Cwd = none) ∧
    (findPlandex env fs g.Cwd = none → ∀ fs2 : Node,
      Mkdir umask ModePerm fs (g.Cwd ++ [markerName env]) = .ok fs2 →
        (FindOrCreatePlandex env umask fs g).path = some (g.Cwd ++ [markerName env]) ∧
        (FindOrCreatePlandex env umask fs g).created = true ∧
        (FindOrCreatePlandex env umask fs g).err = none ∧
        (FindOrCreatePlandex env umask fs g).globals =
          ⟨g.Cwd, some (g.Cwd ++ [markerName env]), some g.Cwd⟩ ∧
        (FindOrCreatePlandex env umask fs g).fs = fs2 ∧
        (∀ q : Path, look fs2 q =
          if q = g.Cwd ++ [markerName env] then some (.dir (applyUmask umask ModePerm))
          else look fs q) ∧
        look fs (g.Cwd ++ [markerName env]) = none ∧
        findPlandex env fs2 g.Cwd = some (g.Cwd ++ [markerName env])) ∧
    (∀ d : Path, findPlandex env fs g.Cwd = some d →
        d = g.Cwd ++ [markerName env] ∧
        (FindOrCreatePlandex env umask fs g).path = some d ∧
        (FindOrCreatePlandex env umask fs g).created = false ∧
        (FindOrCreatePlandex env umask fs g).err = none ∧
        (FindOrCreatePlandex env umask fs g).globals = ⟨g.Cwd, some d, some g.Cwd⟩ ∧
        (FindOrCreatePlandex env umask fs g).fs = fs) ∧
    (findPlandex env fs g.Cwd = none → ∀ e : Errno,
      Mkdir umask ModePerm fs (g.Cwd ++ [markerName env]) = .error e →
        (FindOrCreatePlandex env umask fs g).path = none ∧
        (FindOrCreatePlandex env umask fs g).created = false ∧
        (FindOrCreatePlandex env umask fs g).err = some e ∧
        (FindOrCreatePlandex env umask fs g).globals = ⟨g.Cwd, none, g.ProjectRoot⟩ ∧
        (FindOrCreatePlandex env umask fs g).fs = fs) := by
  refine ⟨?_, ?_, ?_, ?_⟩
  · intro hd hn
    rw [findPlandex_eq, isNotExist_Stat_child hd hn]
    rfl
  · intro hf fs2 hm
    have hlook := Mkdir_look hm
    have hnone : look fs (g.Cwd ++ [markerName env]) = none := by
      rw [findPlandex_eq] at hf
      by_cases h : isNotExist (Stat fs (g.Cwd ++ [markerName env])) = true
      · exact isNotExist_Stat h
      · simp [h] at hf
    have hfind : findPlandex env fs2 g.Cwd = some (g.Cwd ++ [markerName env]) := by
      rw [findPlandex_eq]
      have : isNotExist (Stat fs2 (g.Cwd ++ [markerName env])) = false := by
        cases h : isNotExist (Stat fs2 (g.Cwd ++ [markerName env])) with
        | false => rfl
        | true =>
          have h2 := isNotExist_Stat h
          rw [hlook] at h2
          simp at h2
      simp [this]
    have hr : FindOrCreatePlandex env umask fs g =
        ⟨some (g.Cwd ++ [markerName env]), true, none,
          ⟨g.Cwd, some (g.Cwd ++ [markerName env]), some g.Cwd⟩, fs2⟩ := by
      simp only [FindOrCreatePlandex, FindPlandexDir, hf, hm]
    rw [hr]
    exact ⟨rfl, rfl, rfl, rfl, rfl, hlook, hnone, hfind⟩
  · intro d hf
    have hd : d = g.Cwd ++ [markerName env] := by
      rw [findPlandex_eq] at hf
      by_cases h : isNotExist (Stat fs (g.Cwd ++ [markerName env])) = true
      · simp [h] at hf
      · rw [if_neg h] at hf
        exact (Option.some.inj hf).symm
    have hr : FindOrCreatePlandex env umask fs g =
        ⟨some d, false, none, ⟨g.Cwd, some d, some g.Cwd⟩, fs⟩ := by
      simp only [FindOrCreatePlandex, FindPlandexDir, hf]
    rw [hr]
    exact ⟨hd, rfl, rfl, rfl, rfl, rfl⟩
  · intro hf e hm
    have hr : FindOrCreatePlandex env umask fs g =
        ⟨none, false, some e, ⟨g.Cwd, none, g.ProjectRoot⟩, fs⟩ := by
      simp only [FindOrCreatePlandex, FindPlandexDir, hf, hm]
    rw [hr]
    exact ⟨rfl, rfl, rfl, rfl, rfl⟩

/-- Witness for C7 (amended): the marker is created in an empty working directory. -/
theorem marker_find_or_create_witness :
    findPlandex (fun _ => "") fsNoMarker ["w"] = none ∧
    (FindOrCreatePlandex (fun _ => "") 0o022 fsNoMarker ⟨["w"], none, none⟩).created = true ∧
    findPlandex (fun _ => "")
      (FindOrCreatePlandex (fun _ => "") 0o022 fsNoMarker ⟨["w"], none, none⟩).fs ["w"] =
        some ["w", ".plandex-v2"] := by
  have h := marker_find_or_create (fun _ => "") 0o022 fsNoMarker ⟨["w"], none, none⟩
  have h1 := h.1 (by decide) (by decide)
  have h2 := h.2.1 h1 (.dir 0o755 [("w", .dir 0o755 [(".plandex-v2", .dir 0o755 [])])]) rfl
  refine ⟨h1, h2.2.1, ?_⟩
  rw [h2.2.2.2.2.1]
  exact h2.2.2.2.2.2.2.2

/-! ## Directory listings -/

theorem mstep_isDirAt {u : Nat} {p : Path} {t : Node} (h : noFileOnWay t p) :
    isDirAt (mstep u p t) p = true := by
  have hok := (MkdirAll_ok_iff u ModePerm p t).mpr h
  unfold isDirAt
  rw [mstep_look]
  cases hl : look t p with
  | none => simp [hok]
  | some i =>
    cases i with
    | dir m => rfl
    | file d m => exact absurd hl (h p (List.prefix_refl p) d m)

theorem isDirAt_of_Ext {s t : Node} {q : Path} (h : Ext s t) (hd : isDirAt s q = true) :
    isDirAt t q = true := by
  obtain ⟨m, hm⟩ := isDirAt_iff.mp hd
  obtain ⟨j, hj, hij⟩ := h q _ hm
  cases j with
  | dir m2 => simp [isDirAt, hj]
  | file d m2 => simp [Info.sameKind] at hij

theorem isFile_of_Ext {s t : Node} {q : Path} {d : Bytes} {m : Nat} (h : Ext s t)
    (hd : look s q = some (.file d m)) : ∃ d2, look t q = some (.file d2 m) := by
  obtain ⟨j, hj, hij⟩ := h q _ hd
  cases j with
  | dir m2 => simp [Info.sameKind] at hij
  | file d2 m2 =>
    simp only [Info.sameKind] at hij
    subst hij
    exact ⟨d2, hj⟩

/-! ## The tokenizer-cache copy -/

theorem NotFile.wstep {umask : Nat} {data : Bytes} {perm : Nat} {p q : Path} {t : Node}
    (h : NotFile t q) (hq : q ≠ p) : NotFile (wstep umask data perm p t) q := by
  intro d m
  rw [wstep_look_ne t hq]
  exact h d m

theorem NotFile.mstep {umask : Nat} {p q : Path} {t : Node} (h : NotFile t q) :
    NotFile (mstep umask p t) q := by
  intro d m
  rw [mstep_look]
  cases hl : look t q with
  | none => simp only []; split <;> simp
  | some i =>
    intro h2
    cases h2
    exact h d m hl

theorem NotFile.planEntry {umask : Nat} {a b q : Path} {t : Node} (e : DirEntry)
    (h : NotFile t q) (hq : q ≠ b ++ [e.Name] ++ ["settings-v2.json"]) :
    NotFile (planEntry umask a b t e) q := by
  unfold Plandex.planEntry
  split
  · simp only []
    split
    · exact (h.mstep).wstep hq
    · exact h.mstep
  · exact h

theorem NotFile.projectEntry {umask : Nat} {l c q : Path} {t : Node} (e : DirEntry)
    (h : NotFile t q) (h1 : q ≠ c ++ [e.Name] ++ ["current-plans-v2.json"])
    (h2 : ∀ n : String, q ≠ c ++ [e.Name] ++ [n] ++ ["settings-v2.json"]) :
    NotFile (projectEntry umask l c t e) q := by
  unfold Plandex.projectEntry
  split
  · simp only []
    have hA : NotFile (match ReadFile (Plandex.mstep umask (c ++ [e.Name]) t)
          (l ++ [e.Name] ++ ["current-plans-v2.json"]) with
        | .ok data => Plandex.wstep umask data 0o644 (c ++ [e.Name] ++ ["current-plans-v2.json"])
            (Plandex.mstep umask (c ++ [e.Name]) t)
        | .error _ => Plandex.mstep umask (c ++ [e.Name]) t) q := by
      split
      · exact (h.mstep).wstep h1
      · exact h.mstep
    split
    · exact hA
    · refine foldl_inv (fun s => NotFile s q) _ _ ?_ _ hA
      intro pe _ s hs
      exact hs.planEntry pe (h2 pe.Name)
  · exact h

theorem isDirAt_of_pre {t : Node} {p r : Path} {i : Info} (h : look t p = some i)
    (hr : r <+: p) (hne : r ≠ p) : isDirAt t r = true := by
  obtain ⟨x, rfl⟩ := hr
  cases x with
  | nil => simp at hne
  | cons c y =>
    cases hl : look t r with
    | none => rw [look_none_append hl] at h; cases h
    | some j =>
      cases j with
      | dir m => simp [isDirAt, hl]
      | file d m => rw [look_file_append hl] at h; cases h

theorem migrate_body {umask : Nat} {l c k : Path} {t : Node} (hL : look t l ≠ none)
    (hauth : look t (c ++ ["auth.json"]) = none) :
    migrateLegacyConfig umask l c k t =
      migrateProjects umask l c (migrateCache umask l k
        (topLevelFile umask l c "accounts.json" 0o600
          (topLevelFile umask l c "auth.json" 0o600 t))) := by
  have hg1 : isNotExist (Stat t l) = false := by
    cases h : isNotExist (Stat t l) with
    | false => rfl
    | true => exact absurd (isNotExist_Stat h) hL
  have hg2 : isOk (Stat t (c ++ ["auth.json"])) = false := isOk_Stat_false hauth
  unfold migrateLegacyConfig
  simp only [hg1, hg2, Bool.false_eq_true, if_false]

theorem NotFile.tiktokenEntry {umask : Nat} {a b q : Path} {t : Node} (e : DirEntry)
    (h : NotFile t q) (hq : q ≠ b ++ [e.Name]) : NotFile (tiktokenEntry umask a b t e) q := by
  intro d m
  rw [tiktokenEntry_look_ne t e hq]
  exact h d m

theorem NotFile.migrateCache {umask : Nat} {l k q : Path} {t : Node} (h : NotFile t q)
    (hq : ∀ e : String, q ≠ k ++ ["tiktoken"] ++ [e]) :
    NotFile (migrateCache umask l k t) q := by
  unfold Plandex.migrateCache
  simp only []
  split
  · split
    · refine foldl_inv (fun s => NotFile s q) _ _ ?_ _ h.mstep
      intro e _ s hs
      exact hs.tiktokenEntry e (hq e.Name)
    · exact h
  · exact h

theorem walk_eq_under {S T : Node} {l r : Path} {n : Node} (hS : walk S l = .ok n)
    (hT : walk T l = .ok n) (h : l <+: r) : walk S r = walk T r := by
  obtain ⟨x, rfl⟩ := h
  rw [walk_append, walk_append, hS, hT]

theorem Stat_congr {S T : Node} {p : Path} (h : walk S p = walk T p) : Stat S p = Stat T p := by
  unfold Stat; rw [h]

theorem ReadFile_congr {S T : Node} {p : Path} (h : walk S p = walk T p) :
    ReadFile S p = ReadFile T p := by
  unfold ReadFile; rw [h]

theorem ReadDir_congr {S T : Node} {p : Path} (h : walk S p = walk T p) :
    ReadDir S p = ReadDir T p := by
  unfold ReadDir; rw [h]

theorem Rel.of_eq {F S T : Node} (h : ∀ q, look T q = look F q) : Rel F S T :=
  fun q => Or.inr (h q)

theorem look_none_of_Ext {s t : Node} {q : Path} (h : Ext s t) (hn : look t q = none) :
    look s q = none := by
  cases hs : look s q with
  | none => rfl
  | some i =>
    obtain ⟨j, hj, _⟩ := h q i hs
    rw [hn] at hj
    cases hj

theorem rel_mstep {umask : Nat} {p : Path} {F S T : Node} (h : Rel F S T)
    (hF : Ext (mstep umask p S) F) : Rel F (mstep umask p S) (mstep umask p T) := by
  have hSF : Ext S F := (Ext_mstep umask p S).trans hF
  -- the two calls succeed together
  have hok : isOk (MkdirAll umask ModePerm S p) = isOk (MkdirAll umask ModePerm T p) := by
    have h1 := MkdirAll_ok_iff umask ModePerm p S
    have h2 := MkdirAll_ok_iff umask ModePerm p T
    have key : noFileOnWay S p ↔ noFileOnWay T p := by
      constructor
      · intro hS r hr d m hT
        have hdir : isDirAt (mstep umask p S) r = true := by
          have hp := mstep_isDirAt (u := umask) hS
          by_cases hrp : r = p
          · rw [hrp]; exact hp
          · obtain ⟨m2, hm2⟩ := isDirAt_iff.mp hp
            exact isDirAt_of_pre hm2 hr hrp
        obtain ⟨m3, hm3⟩ := isDirAt_iff.mp (isDirAt_of_Ext hF hdir)
        rcases h r with h3 | h3
        · rw [hT] at h3
          exact hS r hr d m h3.symm
        · rw [hT, hm3] at h3
          cases h3
      · intro hT r hr d m hS
        obtain ⟨d2, hd2⟩ := isFile_of_Ext hSF hS
        rcases h r with h3 | h3
        · rw [hS] at h3
          exact hT r hr d m h3
        · rw [hd2] at h3
          exact hT r hr d2 m h3
    cases ha : isOk (MkdirAll umask ModePerm S p) <;>
      cases hb : isOk (MkdirAll umask ModePerm T p) <;> simp_all
  intro q
  rcases h q with h1 | h1
  · left
    rw [mstep_look, mstep_look, h1, hok]
  · cases hT : look T q with
    | some i =>
      right
      rw [mstep_look, hT, ← h1, hT]
    | none =>
      left
      have hS : look S q = none := look_none_of_Ext hSF (by rw [← h1, hT])
      rw [mstep_look, mstep_look, hT, hS, hok]

theorem mstep_none_final {umask : Nat} {p : Path} {F S : Node}
    (hF : Ext (mstep umask p S) F) (hn : look (mstep umask p S) p = none) :
    look F p = none := by
  have hnw : ¬ noFileOnWay S p := by
    intro hw
    have := mstep_isDirAt (u := umask) hw
    simp [isDirAt, hn] at this
  unfold noFileOnWay at hnw
  push_neg at hnw
  obtain ⟨r, hr, d, m, hrd⟩ := hnw
  obtain ⟨d2, hd2⟩ := isFile_of_Ext ((Ext_mstep umask p S).trans hF) hrd
  obtain ⟨x, rfl⟩ := hr
  cases x with
  | nil =>
    simp only [List.append_nil] at hn hrd
    rw [mstep_look_some hrd] at hn
    cases hn
  | cons c y => exact look_file_append hd2 c y

theorem rel_wstep {umask : Nat} {data : Bytes} {perm : Nat} {par : Path} {c : String}
    {F S T : Node} (h : Rel F S T)
    (hF : Ext (wstep umask data perm (par ++ [c]) S) F)
    (hpar : look S par = none → look F par = none) :
    Rel F (wstep umask data perm (par ++ [c]) S) (wstep umask data perm (par ++ [c]) T) := by
  have hSF : Ext S F := (Ext_wstep umask data perm (par ++ [c]) S).trans hF
  by_cases hS : isDirAt S par = true ∧ isDirAt S (par ++ [c]) = false
  · -- the write succeeds in the first run, hence in the second
    have hSp := wstep_look_self (u := umask) (d := data) (r := perm) S hS.1 hS.2
    obtain ⟨dF, hdF⟩ := isFile_of_Ext hF hSp
    have hT : isDirAt T par = true ∧ isDirAt T (par ++ [c]) = false := by
      constructor
      · obtain ⟨m, hm⟩ := isDirAt_iff.mp hS.1
        obtain ⟨m2, hm2⟩ := isDirAt_iff.mp (isDirAt_of_Ext hSF hS.1)
        rcases h par with h1 | h1
        · exact isDirAt_iff.mpr ⟨m, by rw [h1, hm]⟩
        · exact isDirAt_iff.mpr ⟨m2, by rw [h1, hm2]⟩
      · rcases h (par ++ [c]) with h1 | h1
        · unfold isDirAt at hS ⊢
          rw [h1]; exact hS.2
        · simp [isDirAt, h1, hdF]
    have hTp := wstep_look_self (u := umask) (d := data) (r := perm) T hT.1 hT.2
    intro q
    by_cases hq : q = par ++ [c]
    · subst hq
      left
      rw [hSp, hTp]
      rcases h (par ++ [c]) with h1 | h1
      · rw [h1]
      · rw [h1, hdF]
        rfl
    · rw [wstep_look_ne S hq, wstep_look_ne T hq]
      exact h q
  · -- the write fails in the first run, hence in the second
    have hT : ¬ (isDirAt T par = true ∧ isDirAt T (par ++ [c]) = false) := by
      rintro ⟨hT1, hT2⟩
      obtain ⟨m, hm⟩ := isDirAt_iff.mp hT1
      have hSpar : isDirAt S par = true := by
        rcases h par with h1 | h1
        · exact isDirAt_iff.mpr ⟨m, by rw [← h1, hm]⟩
        · cases hl : look S par with
          | none =>
            rw [hpar hl, hm] at h1
            cases h1
          | some i =>
            cases i with
            | dir m2 => simp [isDirAt, hl]
            | file d2 m2 =>
              obtain ⟨d3, hd3⟩ := isFile_of_Ext hSF hl
              rw [hd3, hm] at h1
              cases h1
      have hSp : isDirAt S (par ++ [c]) = true := by
        cases hx : isDirAt S (par ++ [c]) with
        | true => rfl
        | false => exact absurd ⟨hSpar, hx⟩ hS
      have hFp := isDirAt_of_Ext hSF hSp
      rcases h (par ++ [c]) with h1 | h1
      · unfold isDirAt at hT2 hSp
        rw [h1, hSp] at hT2
        cases hT2
      · unfold isDirAt at hT2 hFp
        rw [h1, hFp] at hT2
        cases hT2
    rw [wstep_fail S hS, wstep_fail T hT]
    exact h

/-! ### The legacy subtree is not written to -/

theorem not_pre_append {l b : Path} (h1 : ¬ l <+: b) (h2 : ¬ b <+: l) (x : Path) :
    ¬ l <+: b ++ x := by
  intro h
  rcases List.prefix_or_prefix_of_prefix h (List.prefix_append b x) with h3 | h3
  · exact h1 h3
  · exact h2 h3

theorem walk_topLevelFile {u : Nat} {a b l : Path} {s : String} {r : Nat}
    {t n : Node} (hb : ∀ x, ¬ l <+: b ++ x) (h : walk t l = .ok n) :
    walk (topLevelFile u a b s r t) l = .ok n := by
  unfold topLevelFile
  simp only []
  split
  · split
    · exact walk_wstep (hb _) h
    · exact h
  · exact h

theorem walk_tiktokenEntry {umask : Nat} {a b l : Path} {t n : Node} (e : DirEntry)
    (hb : ∀ x, ¬ l <+: b ++ x) (h : walk t l = .ok n) :
    walk (tiktokenEntry umask a b t e) l = .ok n := by
  unfold tiktokenEntry
  split
  · split
    · exact walk_wstep (hb _) h
    · exact h
  · exact h

theorem walk_planEntry {umask : Nat} {a b l : Path} {t n : Node} (e : DirEntry)
    (hb : ∀ x, ¬ l <+: b ++ x) (h : walk t l = .ok n) :
    walk (planEntry umask a b t e) l = .ok n := by
  unfold planEntry
  split
  · simp only []
    split
    · refine walk_wstep ?_ (walk_mstep (hb _) h)
      rw [List.append_assoc]
      exact hb _
    · exact walk_mstep (hb _) h
  · exact h

theorem walk_projHead {u : Nat} {a b l : Path} {p : String} {t n : Node}
    (hb : ∀ x, ¬ l <+: b ++ x) (h : walk t l = .ok n) :
    walk (projHead u a b p t) l = .ok n := by
  unfold projHead
  split
  · refine walk_wstep ?_ (walk_mstep (hb _) h)
    rw [List.append_assoc]
    exact hb _
  · exact walk_mstep (hb _) h

/-! ### The fragments of the migration, in lock step -/

theorem sim_foldl {α : Type} (f : Node → α → Node) (I : Node → Node → Prop) (Q : Node → Prop)
    (F : Node) (hext : ∀ t e, Ext t (f t e)) (hQ : ∀ s s2, Ext s s2 → Q s → Q s2)
    (hstep : ∀ e s t, Q s → I s t → Ext (f s e) F → I (f s e) (f t e)) :
    ∀ (es : List α) (s t : Node), Q s → I s t → Ext (es.foldl f s) F →
      I (es.foldl f s) (es.foldl f t) := by
  intro es
  induction es with
  | nil => intro s t _ h _; exact h
  | cons e es ih =>
    intro s t hq h hF
    simp only [List.foldl_cons] at hF ⊢
    have hF1 : Ext (f s e) F := (Ext_foldl f hext es (f s e)).trans hF
    exact ih _ _ (hQ _ _ (hext s e) hq) (hstep e s t hq h hF1) hF

theorem sim_copy {umask : Nat} {l src par : Path} {c : String} {perm : Nat} {n F S T : Node}
    (hb : ∀ x, ¬ l <+: par ++ x) (hsrc : l <+: src) (h : Inv l n F S T)
    (hF : Ext (match ReadFile S src with
        | .ok data => wstep umask data perm (par ++ [c]) S
        | .error _ => S) F)
    (hpar : look S par = none → look F par = none) :
    Inv l n F
      (match ReadFile S src with
        | .ok data => wstep umask data perm (par ++ [c]) S
        | .error _ => S)
      (match ReadFile T src with
        | .ok data => wstep umask data perm (par ++ [c]) T
        | .error _ => T) := by
  obtain ⟨hrel, hS, hT⟩ := h
  rw [← ReadFile_congr (walk_eq_under hS hT hsrc)] at *
  cases hr : ReadFile S src with
  | error e => exact ⟨hrel, hS, hT⟩
  | ok data =>
    rw [hr] at hF
    exact ⟨rel_wstep hrel hF hpar, walk_wstep (hb _) hS, walk_wstep (hb _) hT⟩

theorem sim_topLevelFile {umask : Nat} {l c : Path} {name : String} {perm : Nat}
    {n F S T : Node} (hb : ∀ x, ¬ l <+: c ++ x) (h : Inv l n F S T)
    (hF : Ext (topLevelFile umask l c name perm S) F) (hC : look S c ≠ none) :
    Inv l n F (topLevelFile umask l c name perm S) (topLevelFile umask l c name perm T) := by
  have hw := walk_eq_under h.2.1 h.2.2 (List.prefix_append l [name])
  unfold topLevelFile at hF ⊢
  simp only [] at hF ⊢
  rw [← Stat_congr hw] at *
  cases hs : isOk (Stat S (l ++ [name])) with
  | false => simpa [hs] using h
  | true =>
    simp only [hs, if_true] at hF ⊢
    exact sim_copy hb (List.prefix_append l [name]) h hF (fun hn => absurd hn hC)

theorem sim_mstep {umask : Nat} {l p : Path} {n F S T : Node} (hp : ¬ l <+: p)
    (h : Inv l n F S T) (hF : Ext (mstep umask p S) F) :
    Inv l n F (mstep umask p S) (mstep umask p T) :=
  ⟨rel_mstep h.1 hF, walk_mstep hp h.2.1, walk_mstep hp h.2.2⟩

theorem sim_tiktokenEntry {umask : Nat} {l a b : Path} {n F S T : Node} (e : DirEntry)
    (hb : ∀ x, ¬ l <+: b ++ x) (ha : l <+: a) (h : Inv l n F S T)
    (hF : Ext (tiktokenEntry umask a b S e) F)
    (hpar : look S b = none → look F b = none) :
    Inv l n F (tiktokenEntry umask a b S e) (tiktokenEntry umask a b T e) := by
  unfold tiktokenEntry at hF ⊢
  cases hd : e.IsDir with
  | true => simpa [hd] using h
  | false =>
    simp only [hd, Bool.not_false, if_true] at hF ⊢
    exact sim_copy hb (ha.trans (List.prefix_append a _)) h hF hpar

theorem sim_migrateCache {umask : Nat} {l k : Path} {n F S T : Node}
    (hb : ∀ x, ¬ l <+: k ++ x) (h : Inv l n F S T)
    (hF : Ext (migrateCache umask l k S) F) :
    Inv l n F (migrateCache umask l k S) (migrateCache umask l k T) := by
  have hpre : ∀ x : Path, l <+: l ++ x := fun x => List.prefix_append l x
  have hw1 := walk_eq_under h.2.1 h.2.2 (hpre ["cache"])
  have hw2 : walk S (l ++ ["cache"] ++ ["tiktoken"]) = walk T (l ++ ["cache"] ++ ["tiktoken"]) :=
    walk_eq_under h.2.1 h.2.2 (by rw [List.append_assoc]; exact hpre _)
  have hbt : ∀ x, ¬ l <+: k ++ ["tiktoken"] ++ x := by
    intro x
    rw [List.append_assoc]
    exact hb _
  unfold migrateCache at hF ⊢
  simp only [] at hF ⊢
  rw [← Stat_congr hw1, ← ReadDir_congr hw2] at *
  cases hs : isOk (Stat S (l ++ ["cache"])) with
  | false => simpa [hs] using h
  | true =>
    simp only [hs, if_true] at hF ⊢
    cases hr : ReadDir S (l ++ ["cache"] ++ ["tiktoken"]) with
    | error e => simpa [hr] using h
    | ok entries =>
      simp only [hr] at hF ⊢
      have hF1 : Ext (mstep umask (k ++ ["tiktoken"]) S) F :=
        (Ext_foldl _ (Ext_tiktokenEntry _ _ _) entries _).trans hF
      refine sim_foldl (tiktokenEntry umask (l ++ ["cache"] ++ ["tiktoken"]) (k ++ ["tiktoken"]))
        (Inv l n F)
        (fun s => look s (k ++ ["tiktoken"]) = none → look F (k ++ ["tiktoken"]) = none) F
        (Ext_tiktokenEntry _ _ _) ?_ ?_ entries _ _ ?_ (sim_mstep (hb _) h hF1) hF
      · intro s s2 hs2 hq hn
        exact hq (look_none_of_Ext hs2 hn)
      · intro e s t hq hi hFe
        exact sim_tiktokenEntry e hbt (by rw [List.append_assoc]; exact hpre _) hi hFe hq
      · exact mstep_none_final hF1

theorem sim_planEntry {umask : Nat} {l a b : Path} {n F S T : Node} (e : DirEntry)
    (hb : ∀ x, ¬ l <+: b ++ x) (ha : l <+: a) (h : Inv l n F S T)
    (hF : Ext (planEntry umask a b S e) F) :
    Inv l n F (planEntry umask a b S e) (planEntry umask a b T e) := by
  unfold planEntry at hF ⊢
  cases hd : e.IsDir with
  | false => simpa [hd] using h
  | true =>
    simp only [hd, if_true] at hF ⊢
    have hF1 : Ext (mstep umask (b ++ [e.Name]) S) F := by
      refine Ext.trans ?_ hF
      split
      · exact Ext_wstep _ _ _ _ _
      · exact Ext.refl _
    have hbe : ∀ x, ¬ l <+: b ++ [e.Name] ++ x := by
      intro x
      rw [List.append_assoc]
      exact hb _
    exact sim_copy hbe
      ((ha.trans (List.prefix_append a _)).trans (List.prefix_append _ _))
      (sim_mstep (hb _) h hF1) hF (mstep_none_final hF1)

theorem sim_projHead {umask : Nat} {l c : Path} {p : String} {n F S T : Node}
    (hb : ∀ x, ¬ l <+: c ++ x) (h : Inv l n F S T)
    (hF : Ext (projHead umask l c p S) F) :
    Inv l n F (projHead umask l c p S) (projHead umask l c p T) := by
  unfold projHead at hF ⊢
  have hF1 : Ext (mstep umask (c ++ [p]) S) F := by
    refine Ext.trans ?_ hF
    split
    · exact Ext_wstep _ _ _ _ _
    · exact Ext.refl _
  have hbe : ∀ x, ¬ l <+: c ++ [p] ++ x := by
    intro x
    rw [List.append_assoc]
    exact hb _
  exact sim_copy hbe
    (by rw [List.append_assoc]; exact List.prefix_append l _)
    (sim_mstep (hb _) h hF1) hF (mstep_none_final hF1)

theorem projectEntry_eq_head {umask : Nat} {l c : Path} (t : Node) (e : DirEntry) :
    projectEntry umask l c t e =
      if e.IsDir && e.Name != "cache" then
        match ReadDir (projHead umask l c e.Name t) (l ++ [e.Name]) with
        | .error _ => projHead umask l c e.Name t
        | .ok pes =>
          pes.foldl (planEntry umask (l ++ [e.Name]) (c ++ [e.Name])) (projHead umask l c e.Name t)
      else t := rfl

theorem sim_projectEntry {umask : Nat} {l c : Path} {n F S T : Node} (e : DirEntry)
    (hb : ∀ x, ¬ l <+: c ++ x) (h : Inv l n F S T)
    (hF : Ext (projectEntry umask l c S e) F) :
    Inv l n F (projectEntry umask l c S e) (projectEntry umask l c T e) := by
  rw [projectEntry_eq_head] at hF ⊢
  rw [projectEntry_eq_head T e]
  cases hd : (e.IsDir && e.Name != "cache") with
  | false => simpa [hd] using h
  | true =>
    simp only [hd, if_true] at hF ⊢
    have hF1 : Ext (projHead umask l c e.Name S) F := by
      refine Ext.trans ?_ hF
      split
      · exact Ext.refl _
      · exact Ext_foldl _ (Ext_planEntry _ _ _) _ _
    have h1 := sim_projHead (p := e.Name) hb h hF1
    have hw := walk_eq_under h1.2.1 h1.2.2 (List.prefix_append l [e.Name])
    rw [← ReadDir_congr hw] at *
    cases hr : ReadDir (projHead umask l c e.Name S) (l ++ [e.Name]) with
    | error x => simpa [hr] using h1
    | ok pes =>
      simp only [hr] at hF ⊢
      have hbe : ∀ x, ¬ l <+: c ++ [e.Name] ++ x := by
        intro x
        rw [List.append_assoc]
        exact hb _
      exact sim_foldl (planEntry umask (l ++ [e.Name]) (c ++ [e.Name])) (Inv l n F)
        (fun _ => True) F (Ext_planEntry _ _ _) (fun _ _ _ _ => trivial)
        (fun pe s t _ hi hFe => sim_planEntry pe hbe (List.prefix_append l _) hi hFe)
        pes _ _ trivial h1 hF

theorem sim_migrateProjects {umask : Nat} {l c : Path} {n F S T : Node}
    (hb : ∀ x, ¬ l <+: c ++ x) (h : Inv l n F S T)
    (hF : Ext (migrateProjects umask l c S) F) :
    Inv l n F (migrateProjects umask l c S) (migrateProjects umask l c T) := by
  have hw : walk S l = walk T l := by rw [h.2.1, h.2.2]
  unfold migrateProjects at hF ⊢
  rw [← ReadDir_congr hw] at *
  cases hr : ReadDir S l with
  | error x => simpa [hr] using h
  | ok entries =>
    simp only [hr] at hF ⊢
    exact sim_foldl (projectEntry umask l c) (Inv l n F) (fun _ => True) F
      (Ext_projectEntry _ _ _) (fun _ _ _ _ => trivial)
      (fun e s t _ hi hFe => sim_projectEntry e hb hi hFe) entries _ _ trivial h hF

/-! ## Idempotence -/

theorem walk_migrateCache {u : Nat} {l k : Path} {t n : Node} (hb : ∀ x, ¬ l <+: k ++ x)
    (h : walk t l = .ok n) : walk (migrateCache u l k t) l = .ok n := by
  unfold migrateCache
  simp only []
  split
  · split
    · refine foldl_inv (fun s => walk s l = .ok n) _ _ ?_ _ (walk_mstep (hb _) h)
      intro e _ s hs
      refine walk_tiktokenEntry e ?_ hs
      intro x
      rw [List.append_assoc]
      exact hb _
    · exact h
  · exact h

theorem walk_projectEntry {umask : Nat} {l c : Path} {t n : Node} (e : DirEntry)
    (hb : ∀ x, ¬ l <+: c ++ x) (h : walk t l = .ok n) :
    walk (projectEntry umask l c t e) l = .ok n := by
  rw [projectEntry_eq_head]
  split
  · have h1 := walk_projHead (u := umask) (a := l) (p := e.Name) hb h
    split
    · exact h1
    · refine foldl_inv (fun s => walk s l = .ok n) _ _ ?_ _ h1
      intro pe _ s hs
      refine walk_planEntry pe ?_ hs
      intro x
      rw [List.append_assoc]
      exact hb _
  · exact h

theorem walk_migrateProjects {u : Nat} {l c : Path} {t n : Node}
    (hb : ∀ x, ¬ l <+: c ++ x) (h : walk t l = .ok n) :
    walk (migrateProjects u l c t) l = .ok n := by
  unfold migrateProjects
  split
  · exact h
  · refine foldl_inv (fun s => walk s l = .ok n) _ _ ?_ _ h
    intro e _ s hs
    exact walk_projectEntry e hb hs

theorem walk_ok_of_look {t : Node} {p : Path} (h : look t p ≠ none) : ∃ n, walk t p = .ok n := by
  unfold look at h
  cases hw : walk t p with
  | ok n => exact ⟨n, rfl⟩
  | error e => simp [hw] at h

theorem look_ne_none_of_Ext {s t : Node} {q : Path} (h : Ext s t) (hq : look s q ≠ none) :
    look t q ≠ none := by
  intro hn
  exact hq (look_none_of_Ext h hn)

/-- Counterexample to C3 as stated: the new config root does not exist at the start.  The first
run cannot write `auth.json` but creates the config root while migrating a project; the second
run then copies `auth.json`. -/
theorem second_run_copies_auth :
    (¬ ["L"] <+: ["C"] ∧ ¬ ["C"] <+: ["L"] ∧ ¬ ["L"] <+: ["K"] ∧ ¬ ["K"] <+: ["L"]) ∧
    look (migrateLegacyConfig 0o022 ["L"] ["C"] ["K"] fsNoConfigRoot) ["C", "auth.json"] =
      none ∧
    look (migrateLegacyConfig 0o022 ["L"] ["C"] ["K"]
      (migrateLegacyConfig 0o022 ["L"] ["C"] ["K"] fsNoConfigRoot)) ["C", "auth.json"] =
      some (.file [1] 0o600) := by
  decide

/-- C3 (amended): when the legacy root is disjoint from the two new roots (none is equal to or
inside the other) and the new config root exists at the start, running `migrateLegacyConfig`
twice in sequence with the same arguments leaves every path as running it once does: the same
paths exist, with the same kinds, bytes and modes.  This includes a legacy root without
`auth.json`, where the second run repeats the copies. -/
theorem migrate_idempotent (umask : Nat) (legacyDir newConfigDir newCacheDir : Path) (fs : Node)
    (hLC : ¬ legacyDir <+: newConfigDir) (hCL : ¬ newConfigDir <+: legacyDir)
    (hLK : ¬ legacyDir <+: newCacheDir) (hKL : ¬ newCacheDir <+: legacyDir)
    (hC : look fs newConfigDir ≠ none) (q : Path) :
    look (migrateLegacyConfig umask legacyDir newConfigDir newCacheDir
      (migrateLegacyConfig umask legacyDir newConfigDir newCacheDir fs)) q =
    look (migrateLegacyConfig umask legacyDir newConfigDir newCacheDir fs) q := by
  by_cases hg : look fs legacyDir = none ∨ look fs (newConfigDir ++ ["auth.json"]) ≠ none
  · rw [migrate_guard hg, migrate_guard hg]
  · push_neg at hg
    obtain ⟨hL, hauth⟩ := hg
    by_cases hg2 : look (migrateLegacyConfig umask legacyDir newConfigDir newCacheDir fs)
        (newConfigDir ++ ["auth.json"]) ≠ none
    · rw [migrate_guard (Or.inr hg2)]
    · push_neg at hg2
      have hE := Ext_migrateLegacyConfig umask legacyDir newConfigDir newCacheDir fs
      have hL2 := look_ne_none_of_Ext hE hL
      rw [migrate_body hL2 hg2]
      rw [migrate_body hL hauth] at hE hL2 hg2 ⊢
      have hbC := not_pre_append hLC hCL
      have hbK := not_pre_append hLK hKL
      obtain ⟨n, hn⟩ := walk_ok_of_look hL
      have hn2 := walk_migrateProjects (u := umask) hbC
        (walk_migrateCache (u := umask) hbK
          (walk_topLevelFile (u := umask) (a := legacyDir) (s := "accounts.json")
            (r := 0o600) hbC
            (walk_topLevelFile (u := umask) (a := legacyDir) (s := "auth.json")
              (r := 0o600) hbC hn)))
      generalize hF : migrateProjects umask legacyDir newConfigDir
        (migrateCache umask legacyDir newCacheDir
          (topLevelFile umask legacyDir newConfigDir "accounts.json" 0o600
            (topLevelFile umask legacyDir newConfigDir "auth.json" 0o600 fs))) = F at hn2 ⊢
      have h0 : Inv legacyDir n F fs F := ⟨Rel.of_eq (fun _ => rfl), hn, hn2⟩
      have e4 : Ext (migrateProjects umask legacyDir newConfigDir
        (migrateCache umask legacyDir newCacheDir
          (topLevelFile umask legacyDir newConfigDir "accounts.json" 0o600
            (topLevelFile umask legacyDir newConfigDir "auth.json" 0o600 fs)))) F := by
        rw [hF]; exact Ext.refl F
      have e3 := (Ext_migrateProjects umask legacyDir newConfigDir _).trans e4
      have e2 := (Ext_migrateCache umask legacyDir newCacheDir _).trans e3
      have e1 := (Ext_topLevelFile umask legacyDir newConfigDir "accounts.json" 0o600 _).trans e2
      have h1 := sim_topLevelFile hbC h0 e1 hC
      have h2 := sim_topLevelFile hbC h1 e2
        (look_ne_none_of_Ext (Ext_topLevelFile _ _ _ _ _ _) hC)
      have h3 := sim_migrateCache hbK h2 e3
      have h4 := sim_migrateProjects hbC h3 e4
      rw [hF] at h4
      rcases h4.1 q with h5 | h5 <;> exact h5

/-! ## Concrete runs -/

/-- Witness for C3 (amended): a legacy root without `auth.json`; the second run repeats the copy
of `accounts.json` and changes nothing. -/
theorem migrate_idempotent_witness :
    look (migrateLegacyConfig 0o022 ["L"] ["C"] ["K"]
      (migrateLegacyConfig 0o022 ["L"] ["C"] ["K"] fsAccounts)) ["C", "accounts.json"] =
    look (migrateLegacyConfig 0o022 ["L"] ["C"] ["K"] fsAccounts) ["C", "accounts.json"] :=
  migrate_idempotent 0o022 ["L"] ["C"] ["K"] fsAccounts (by decide) (by decide) (by decide)
    (by decide) (by decide) ["C", "accounts.json"]

end Plandex
